import Mathlib

/-!
Verification of the game-state engine of the LearningReact repository:
two tic-tac-toe variants (`src/ttt2app/ttt2app.js` and the basic variant)
and a Connect Four game (`src/c4app/c4app.js`).  The definitions below are
shallow embeddings of the JavaScript source: boards become total functions
over indices, `null` cells become `Option`, React `useState` updates become
explicit state passing, and the UI-reachable states are captured by an
inductive reachability predicate.
-/

namespace TTT

/-- A tic-tac-toe marker: the JS strings "X" and "O". -/
inductive Player where
  | X : Player
  | O : Player
deriving DecidableEq, Repr

/-- A cell of the 3x3 board: `null`, "X" or "O" in the JS source. -/
abbrev Cell := Option Player

/-- The `squares` array of the JS source: 9 cells, row-major. -/
abbrev Board9 := Fin 9 → Cell

/-- One winning line: the triple `[a, b, c]` of the JS `lines` table. -/
abbrev Line := Fin 9 × Fin 9 × Fin 9

/-- The empty board `Array(9).fill(null)`. -/
def emptyBoard : Board9 := fun _ => none

/-- The `lines` table of `calculateWinner`, in its exact source order:
rows, then columns, then diagonals. -/
def lines : List Line :=
  [(0, 1, 2), (3, 4, 5), (6, 7, 8),
   (0, 3, 6), (1, 4, 7), (2, 5, 8),
   (0, 4, 8), (2, 4, 6)]

/-- The body of the loop of `calculateWinner` for one line:
`squares[a] && squares[a] === squares[b] && squares[a] === squares[c]`,
returning `squares[a]` on success. -/
def lineWinner (squares : Board9) (l : Line) : Option Player :=
  match squares l.1 with
  | none => none
  | some p =>
    if squares l.2.1 = some p ∧ squares l.2.2 = some p then some p else none

/-- The loop of `calculateWinner` over the (remaining) lines, returning
`[squares[a], lines[i]]` at the first match and `[null, null]` otherwise. -/
def goLines (squares : Board9) : List Line → Option Player × Option Line
  | [] => (none, none)
  | l :: rest =>
    match lineWinner squares l with
    | some p => (some p, some l)
    | none => goLines squares rest

/-- `calculateWinner(squares)` from `ttt2app.js` (identical in the basic
variant): returns the pair `[winner, winningLine]`. -/
def calculateWinner (squares : Board9) : Option Player × Option Line :=
  goLines squares lines

/-- Spec wording for one line: all three cells hold the same non-Empty value. -/
def isWinLine (squares : Board9) (l : Line) : Prop :=
  squares l.1 ≠ none ∧ squares l.1 = squares l.2.1 ∧ squares l.1 = squares l.2.2

/-- `squareCoords(i)` from the source: row-major index to `[row, col]`. -/
def squareCoords (i : Fin 9) : Nat × Nat := (i.val / 3, i.val % 3)

/-- One entry of the `history` state: `{squares, position}`; the initial
entry's `[null, null]` position becomes `none`. -/
structure Entry where
  squares : Board9
  position : Option (Nat × Nat)

/-- The engine state of the `Game` component: the `history` and
`currentMove` hook states (the UI-only hook states are excluded). -/
structure GameState where
  history : List Entry
  currentMove : Nat

/-- The initial hook state: one entry with the empty board, cursor 0. -/
def initState : GameState := ⟨[⟨emptyBoard, none⟩], 0⟩

/-- `history[currentMove]?.squares || Array(9).fill(null)` from the source. -/
def currentSquares (s : GameState) : Board9 :=
  match s.history[s.currentMove]? with
  | some e => e.squares
  | none => emptyBoard

/-- `xIsNext = currentMove % 2 === 0` from the source. -/
def xIsNext (s : GameState) : Bool := s.currentMove % 2 == 0

/-- The error taxonomy of the spec (section 7). -/
inductive MoveError where
  | CellOccupied : MoveError
  | GameAlreadyDecided : MoveError
  | IndexOutOfRange : MoveError
deriving DecidableEq, Repr

/-- The validation-and-update core of `handleClick`: the guard
`if (squares[i] || calculateWinner(squares)[0]) return;` (in that
short-circuit order) followed by `nextSquares = squares.slice();
nextSquares[i] = mark`, expressed with the spec's error names. -/
def applyMove (squares : Board9) (i : Fin 9) (mark : Player) :
    Except MoveError Board9 :=
  if squares i ≠ none then .error .CellOccupied
  else if (calculateWinner squares).1 ≠ none then .error .GameAlreadyDecided
  else .ok (Function.update squares i (some mark))

/-- `handlePlay(nextSquares, index)` from the source: truncate the history
to `[0..currentMove]`, append the new entry, move the cursor to the end. -/
def handlePlay (s : GameState) (nextSquares : Board9) (index : Fin 9) :
    GameState :=
  let nextHistory :=
    s.history.take (s.currentMove + 1) ++ [⟨nextSquares, some (squareCoords index)⟩]
  ⟨nextHistory, nextHistory.length - 1⟩

/-- `handleClick(i)` from the `Board` component: an invalid move returns
early (state unchanged), a valid one places the mark and calls `onPlay`. -/
def handleClick (s : GameState) (i : Fin 9) : GameState :=
  match applyMove (currentSquares s) i (if xIsNext s then .X else .O) with
  | .error _ => s
  | .ok b => handlePlay s b i

/-- `jumpTo(nextMove)` from the source: `setCurrentMove(nextMove)` with no
validation (the `selectedMove` UI-feedback state is excluded). -/
def jumpTo (nextMove : Nat) (s : GameState) : GameState :=
  { s with currentMove := nextMove }

/-- The "Draw!" branch of the status computation in `Board`: no winner and
`currentMove === history.length - 1 && history.length === 10`. -/
def isDraw (s : GameState) : Prop :=
  (calculateWinner (currentSquares s)).1 = none ∧
    s.currentMove = s.history.length - 1 ∧ s.history.length = 10

instance (s : GameState) : Decidable (isDraw s) := by
  unfold isDraw; infer_instance

/-- Number of occupied (non-Empty) cells of a board. -/
def occ9 (b : Board9) : Nat := (Finset.univ.filter fun j => b j ≠ none).card

/-- Spec wording: the board has no Empty cells. -/
def boardFull (b : Board9) : Prop := ∀ j, b j ≠ none

instance (b : Board9) : Decidable (boardFull b) := by
  unfold boardFull; infer_instance

/-- The states the `Game` component can reach: the initial state, any
click, and any time travel to an existing entry (the move list renders a
`jumpTo` button only for indices `0..history.length-1`). -/
inductive Reachable : GameState → Prop where
  | init : Reachable initState
  | click (s : GameState) (i : Fin 9) : Reachable s → Reachable (handleClick s i)
  | jump (s : GameState) (n : Nat) :
      Reachable s → n < s.history.length → Reachable (jumpTo n s)

instance (squares : Board9) (l : Line) : Decidable (isWinLine squares l) := by
  unfold isWinLine; infer_instance

/-- Modelled from the spec's words, for comparison with `calculateWinner`:
the first line of the fixed enumeration whose three cells all hold the same
non-Empty value gives the winner and the winning cells; otherwise no winner
and no winning cells. -/
def specCalculateWinner (squares : Board9) : Option Player × Option Line :=
  match lines.find? (fun l => decide (isWinLine squares l)) with
  | some l => (squares l.1, some l)
  | none => (none, none)

end TTT

namespace C4

/-- A Connect Four marker: the JS strings "red" and "yellow". -/
inductive RY where
  | red : RY
  | yellow : RY
deriving DecidableEq, Repr

/-- A cell of the Connect Four board: `null`, "red" or "yellow". -/
abbrev Cell4 := Option RY

/-- The 6x7 `board` state, embedded as a total function on integer
coordinates; the game only ever reads or writes cells with
`0 ≤ row < 6` and `0 ≤ col < 7` (every access in the source is guarded). -/
abbrev Board4 := Int → Int → Cell4

/-- `currentPlayer === "red" ? "yellow" : "red"` from `dropPiece`. -/
def toggle : RY → RY
  | .red => .yellow
  | .yellow => .red

/-- The bounds test of the `while` condition in `checkWinner`:
`r >= 0 && r < ROWS && c >= 0 && c < COLS`. -/
def inB (r c : Int) : Prop := 0 ≤ r ∧ r < 6 ∧ 0 ≤ c ∧ c < 7

instance (r c : Int) : Decidable (inB r c) := by
  unfold inB; infer_instance

/-- The full `while` condition of `checkWinner`: in bounds and
`board[r][c] === player`. -/
def goodAt (b : Board4) (p : RY) (r c : Int) : Bool :=
  decide (inB r c) && decide (b r c = some p)

/-- The `while` loop of `checkWinner` along one direction `(dr, dc)`:
push `(r, c)` and advance while the condition holds.  The loop is embedded
with a fuel bound of 8 steps; since every pushed cell is in bounds and the
direction is one of the eight unit directions, the real loop can never run
8 steps (proved below), so the fuel never cuts it short. -/
def ray (b : Board4) (p : RY) (dr dc : Int) : Nat → Int → Int → List (Int × Int)
  | 0, _, _ => []
  | n + 1, r, c =>
    if goodAt b p r c then (r, c) :: ray b p dr dc n (r + dr) (c + dc) else []

/-- The `directions` table of `checkWinner`, in its exact source order:
horizontal, vertical, diagonal `\`, diagonal `/`; each entry is the pair of
opposite direction vectors. -/
def axesList : List ((Int × Int) × (Int × Int)) :=
  [((0, 1), (0, -1)), ((1, 0), (-1, 0)), ((1, 1), (-1, -1)), ((1, -1), (-1, 1))]

/-- The `winningCells` list accumulated for one axis: the placed cell
first, then the cells found in each of the two directions; its length is
the source's `count`. -/
def axisCells (b : Board4) (p : RY) (row col : Int) (d1 d2 : Int × Int) :
    List (Int × Int) :=
  (row, col) ::
    (ray b p d1.1 d1.2 8 (row + d1.1) (col + d1.2) ++
      ray b p d2.1 d2.2 8 (row + d2.1) (col + d2.2))

/-- The outer `for` loop of `checkWinner` over the (remaining) axes:
return the accumulated cells of the first axis with `count >= 4`. -/
def goAxes (b : Board4) (p : RY) (row col : Int) :
    List ((Int × Int) × (Int × Int)) → Option (List (Int × Int))
  | [] => none
  | (d1, d2) :: rest =>
    if 4 ≤ (axisCells b p row col d1 d2).length then some (axisCells b p row col d1 d2)
    else goAxes b p row col rest

/-- `checkWinner(board, row, col, player)` from `c4app.js`: the winning
cells of the first axis that accumulates 4 or more consecutive pieces, or
`null`. -/
def checkWinner (b : Board4) (row col : Int) (p : RY) :
    Option (List (Int × Int)) :=
  goAxes b p row col axesList

/-- The row-finding loop of `dropPiece`:
`for (let row = ROWS - 1; row >= 0; row--) if (!board[row][col]) ...`;
`goFR b col (n+1)` examines row `n` first, so `goFR b col 6` scans rows
5, 4, ..., 0. -/
def goFR (b : Board4) (col : Int) : Nat → Option Int
  | 0 => none
  | n + 1 => if b (n : Int) col = none then some (n : Int) else goFR b col n

/-- The row where a piece dropped in `col` settles: the first Empty row
scanning from the bottom, or `none` when the column is full (the spec's
`ColumnFullError`). -/
def findRow (b : Board4) (col : Int) : Option Int := goFR b col 6

/-- `newBoard[row][col] = player` on a fresh deep copy of the board. -/
def update2 (b : Board4) (r c : Int) (v : Cell4) : Board4 :=
  fun r' c' => if r' = r ∧ c' = c then v else b r' c'

/-- The engine state of the `ConnectFour` component: the `board`,
`currentPlayer`, `winner` and `winningCells` hook states (the hover and
audio states are excluded). -/
structure C4State where
  board : Board4
  currentPlayer : RY
  winner : Option RY
  winningCells : List (Int × Int)

/-- The initial hook state: empty board, red to move, no winner. -/
def init4 : C4State := ⟨fun _ _ => none, .red, none, []⟩

/-- `dropPiece(col)` from `c4app.js`: return early when the game is won;
find the lowest empty row; place the piece immutably; run `checkWinner`
and record a win; always switch players after a successful placement;
do nothing when the column is full. -/
def dropPiece (col : Int) (s : C4State) : C4State :=
  if s.winner ≠ none then s
  else
    match findRow s.board col with
    | none => s
    | some r =>
      let newBoard := update2 s.board r col (some s.currentPlayer)
      match checkWinner newBoard r col s.currentPlayer with
      | some winPositions =>
        { board := newBoard, currentPlayer := toggle s.currentPlayer,
          winner := some s.currentPlayer, winningCells := winPositions }
      | none =>
        { board := newBoard, currentPlayer := toggle s.currentPlayer,
          winner := s.winner, winningCells := s.winningCells }

/-- Number of occupied cells of the 6x7 grid. -/
def occ4 (b : Board4) : Nat :=
  ((Finset.range 6 ×ˢ Finset.range 7).filter
    fun rc : Nat × Nat => b (rc.1 : Int) (rc.2 : Int) ≠ none).card

/-- The states the `ConnectFour` component can reach: the initial state,
any drop on a rendered column (the `onClick` handlers pass only
`colIndex ∈ [0, 7)`), and Restart. -/
inductive ReachableC4 : C4State → Prop where
  | init : ReachableC4 init4
  | drop (s : C4State) (col : Int) :
      ReachableC4 s → 0 ≤ col → col < 7 → ReachableC4 (dropPiece col s)
  | restart (s : C4State) : ReachableC4 s → ReachableC4 init4

/-- The eight direction vectors of `checkWinner` are unit steps: the row
step is ±1, or the row step is 0 and the column step is ±1. -/
def isUnitDir (dr dc : Int) : Prop :=
  (dr = 1 ∨ dr = -1) ∨ (dr = 0 ∧ (dc = 1 ∨ dc = -1))

instance (dr dc : Int) : Decidable (isUnitDir dr dc) := by
  unfold isUnitDir; infer_instance

/-- Well-formedness of one entry of the `directions` table: the first
vector is a unit direction and the second is its opposite. -/
def axOK (d : (Int × Int) × (Int × Int)) : Prop :=
  isUnitDir d.1.1 d.1.2 ∧ d.2.1 = -d.1.1 ∧ d.2.2 = -d.1.2

instance (d : (Int × Int) × (Int × Int)) : Decidable (axOK d) := by
  unfold axOK; infer_instance

/-- Spec wording: some window of 4 consecutive cells along the axis
`(dr, dc)` passes through the placed cell (offset 0) and every cell of the
window is in bounds and holds `player`. -/
def hasRun (b : Board4) (p : RY) (row col dr dc : Int) : Prop :=
  ∃ k : Int, -3 ≤ k ∧ k ≤ 0 ∧
    ∀ j : Int, 0 ≤ j → j ≤ 3 →
      inB (row + (k + j) * dr) (col + (k + j) * dc) ∧
        b (row + (k + j) * dr) (col + (k + j) * dc) = some p

/-- Spec wording: `q` belongs to the full connected run through the placed
cell along the axis `(dr, dc)` — `q` is aligned at some offset `t` and
every cell between the placed cell and `q` (inclusive) is in bounds and
holds `player`. -/
def connRun (b : Board4) (p : RY) (row col dr dc : Int) (q : Int × Int) : Prop :=
  ∃ t : Int, q = (row + t * dr, col + t * dc) ∧
    ∀ i : Int, min t 0 ≤ i → i ≤ max t 0 →
      inB (row + i * dr) (col + i * dc) ∧
        b (row + i * dr) (col + i * dc) = some p

/-- Demo board for witnesses: four red pieces at row 5, columns 0-3. -/
def demoRowBoard : Board4 :=
  fun r c => if r = 5 ∧ (c = 0 ∨ c = 1 ∨ c = 2 ∨ c = 3) then some .red else none

/-- Demo board for witnesses: rows 5 and 4 of column 0 occupied. -/
def demoTwoStack : Board4 :=
  fun r c => if c = 0 ∧ (r = 5 ∨ r = 4) then some .red else none

/-- Demo state for witnesses: column 3 completely full, red to move. -/
def fullColState : C4State :=
  ⟨fun _ c => if c = 3 then some .red else none, .red, none, []⟩

end C4

namespace TTT

theorem lineWinner_eq_none (squares : Board9) (l : Line)
    (h : ¬ isWinLine squares l) : lineWinner squares l = none := by
  cases hc : squares l.1 with
  | none => simp [lineWinner, hc]
  | some p =>
    have hb : ¬ (squares l.2.1 = some p ∧ squares l.2.2 = some p) := by
      intro hb
      exact h ⟨by simp [hc], hc.trans hb.1.symm, hc.trans hb.2.symm⟩
    simp [lineWinner, hc, hb]

theorem lineWinner_eq_of_win (squares : Board9) (l : Line)
    (h : isWinLine squares l) : lineWinner squares l = squares l.1 := by
  obtain ⟨h1, h2, h3⟩ := h
  cases hc : squares l.1 with
  | none => exact absurd hc h1
  | some p =>
    have hb : squares l.2.1 = some p := h2.symm.trans hc
    have hd : squares l.2.2 = some p := h3.symm.trans hc
    simp [lineWinner, hc, hb, hd]

theorem goLines_eq_find (squares : Board9) (L : List Line) :
    goLines squares L =
      match L.find? (fun l => decide (isWinLine squares l)) with
      | some l => (squares l.1, some l)
      | none => (none, none) := by
  induction L with
  | nil => rfl
  | cons l rest ih =>
    by_cases h : isWinLine squares l
    · rw [List.find?_cons_of_pos _ (by simpa using h)]
      unfold goLines
      rw [lineWinner_eq_of_win squares l h]
      cases hc : squares l.1 with
      | none => exact absurd hc h.1
      | some p => simp [hc]
    · rw [List.find?_cons_of_neg _ (by simpa using h)]
      unfold goLines
      rw [lineWinner_eq_none squares l h, ih]

/-- C1: for every 3x3 board, `calculateWinner` returns the value and the
positions of the first line — in the fixed enumeration order rows
`[0,1,2],[3,4,5],[6,7,8]`, then columns `[0,3,6],[1,4,7],[2,5,8]`, then
diagonals `[0,4,8],[2,4,6]` — whose three cells all hold the same non-Empty
value, and `(none, none)` when no such line exists. -/
theorem calculateWinner_first_matching_line (squares : Board9) :
    calculateWinner squares = specCalculateWinner squares := by
  unfold calculateWinner specCalculateWinner
  exact goLines_eq_find squares lines

end TTT

namespace TTT

/-- C3: `handlePlay` (the engine's `commitMove`) replaces the history with
`entries[0..cursor]` followed by the one new entry and moves the cursor to
the new last index; consequently, after `jumpTo j` (valid `j`) a single
commit yields length `j + 2` — in particular `jumpTo 0` then a commit
yields exactly 2 entries, regardless of how many entries existed before. -/
theorem handlePlay_truncation (s : GameState) (b : Board9) (i : Fin 9)
    (j : Nat) (hj : j < s.history.length) :
    (handlePlay s b i).history =
      s.history.take (s.currentMove + 1) ++ [⟨b, some (squareCoords i)⟩] ∧
    (handlePlay s b i).currentMove = (handlePlay s b i).history.length - 1 ∧
    (handlePlay (jumpTo j s) b i).history.length = j + 2 := by
  refine ⟨rfl, rfl, ?_⟩
  simp only [handlePlay, jumpTo, List.length_append, List.length_take,
    List.length_cons, List.length_nil]
  omega

/-- Witness for C3: one concrete jump-then-commit (here from the initial
one-entry history) gives exactly `0 + 2` entries. -/
theorem handlePlay_truncation_witness :
    0 < initState.history.length ∧
    (handlePlay (jumpTo 0 initState) emptyBoard 4).history.length = 0 + 2 :=
  ⟨by decide, (handlePlay_truncation initState emptyBoard 4 0 (by decide)).2.2⟩

/-- C6 counterexample: the source's `jumpTo` performs no validation at
all.  Jumping to index 5 on the one-entry initial history does not fail
with `IndexOutOfRange`; it succeeds and leaves the cursor out of range
(`cursor = 5 ≥ 1 = length(entries)`), refuting the claimed validation. -/
theorem jumpTo_unvalidated_counterexample :
    (jumpTo 5 initState).history = initState.history ∧
    (jumpTo 5 initState).currentMove = 5 ∧
    ¬ (jumpTo 5 initState).currentMove < (jumpTo 5 initState).history.length :=
  ⟨rfl, rfl, by decide⟩

/-- C6 amended: `jumpTo(index)` performs no validation and never fails; it
assigns `cursor := index` unconditionally and mutates nothing else, so the
entries are never altered, and `jumpTo(cursor)` with the current cursor
value leaves the whole state unchanged. -/
theorem jumpTo_sets_cursor_only (s : GameState) (n : Nat) :
    (jumpTo n s).history = s.history ∧ (jumpTo n s).currentMove = n ∧
    jumpTo s.currentMove s = s :=
  ⟨rfl, rfl, rfl⟩

end TTT

namespace C4

theorem dropPiece_success (s : C4State) (col r : Int) (hw : s.winner = none)
    (hr : findRow s.board col = some r) :
    (dropPiece col s).board = update2 s.board r col (some s.currentPlayer) ∧
    (dropPiece col s).currentPlayer = toggle s.currentPlayer := by
  unfold dropPiece
  rw [if_neg (by simp [hw]), hr]
  cases hcw : checkWinner (update2 s.board r col (some s.currentPlayer)) r
      col s.currentPlayer <;>
    simp [hcw]

end C4

/-- C7: whenever a move request fails — occupied target cell, game already
decided, or full Connect Four column — every component of the game state is
left exactly as before; for an occupied cell the tic-tac-toe validation
core reports `CellOccupied` (and the state, hence the board, is unchanged). -/
theorem failed_move_state_unchanged :
    (∀ (sq : TTT.Board9) (i : Fin 9) (m : TTT.Player),
        sq i ≠ none → TTT.applyMove sq i m = .error .CellOccupied) ∧
    (∀ (s : TTT.GameState) (i : Fin 9),
        TTT.currentSquares s i ≠ none ∨
          (TTT.calculateWinner (TTT.currentSquares s)).1 ≠ none →
        TTT.handleClick s i = s) ∧
    (∀ (s : C4.C4State) (col : Int), s.winner ≠ none →
        C4.dropPiece col s = s) ∧
    (∀ (s : C4.C4State) (col : Int), C4.findRow s.board col = none →
        C4.dropPiece col s = s) := by
  refine ⟨?_, ?_, ?_, ?_⟩
  · intro sq i m h
    simp [TTT.applyMove, h]
  · intro s i h
    rcases h with h | h
    · simp [TTT.handleClick, TTT.applyMove, h]
    · by_cases ho : TTT.currentSquares s i = none
      · simp [TTT.handleClick, TTT.applyMove, ho, h]
      · simp [TTT.handleClick, TTT.applyMove, ho]
  · intro s col h
    simp [C4.dropPiece, h]
  · intro s col h
    by_cases hw : s.winner = none
    · simp [C4.dropPiece, hw, h]
    · simp [C4.dropPiece, hw]

/-- Witness for C7: clicking an occupied cell and dropping into a full
column at concrete states leave those states unchanged. -/
theorem failed_move_state_unchanged_witness :
    TTT.handleClick (TTT.handleClick TTT.initState 0) 0 =
      TTT.handleClick TTT.initState 0 ∧
    C4.dropPiece 3 C4.fullColState = C4.fullColState :=
  ⟨failed_move_state_unchanged.2.1 (TTT.handleClick TTT.initState 0) 0
      (Or.inl (by decide)),
    failed_move_state_unchanged.2.2.2 C4.fullColState 3 (by decide)⟩

/-- C8: on every successful move the engine produces a new board identical
to the input except that the targeted cell now holds the moving player's
marker (for Connect Four, the resolved landing cell); no other cell
changes, and every board already stored in the history up to the cursor is
still present unchanged after the commit. -/
theorem successful_move_frame :
    (∀ (sq : TTT.Board9) (i : Fin 9) (m : TTT.Player) (b : TTT.Board9),
        TTT.applyMove sq i m = .ok b →
        b i = some m ∧ ∀ j : Fin 9, j ≠ i → b j = sq j) ∧
    (∀ (s : C4.C4State) (col r : Int),
        s.winner = none → C4.findRow s.board col = some r →
        (C4.dropPiece col s).board r col = some s.currentPlayer ∧
        ∀ r' c' : Int, ¬ (r' = r ∧ c' = col) →
          (C4.dropPiece col s).board r' c' = s.board r' c') ∧
    (∀ (s : TTT.GameState) (b : TTT.Board9) (i : Fin 9) (k : Nat)
        (e : TTT.Entry), k ≤ s.currentMove → s.history[k]? = some e →
        (TTT.handlePlay s b i).history[k]? = some e) := by
  refine ⟨?_, ?_, ?_⟩
  · intro sq i m b h
    unfold TTT.applyMove at h
    by_cases h1 : sq i ≠ none
    · rw [if_pos h1] at h
      exact absurd h (by simp)
    · rw [if_neg h1] at h
      by_cases h2 : (TTT.calculateWinner sq).1 ≠ none
      · rw [if_pos h2] at h
        exact absurd h (by simp)
      · rw [if_neg h2] at h
        have hb : Function.update sq i (some m) = b := by simpa using h
        subst hb
        exact ⟨Function.update_same i (some m) sq,
          fun j hj => Function.update_noteq hj (some m) sq⟩
  · intro s col r hw hr
    rw [(C4.dropPiece_success s col r hw hr).1]
    refine ⟨by simp [C4.update2], fun r' c' h => ?_⟩
    simp [C4.update2, h]
  · intro s b i k e hk he
    have hkl : k < s.history.length := (List.getElem?_eq_some.mp he).1
    simp only [TTT.handlePlay]
    rw [List.getElem?_append_left, List.getElem?_take_of_lt (by omega)]
    · exact he
    · simp only [List.length_take]
      omega

/-- Witness for C8: placing X at cell 4 of the empty board yields a board
holding X there and still empty at cell 0. -/
theorem successful_move_frame_witness :
    Function.update TTT.emptyBoard 4 (some TTT.Player.X) 4 =
      some TTT.Player.X ∧
    Function.update TTT.emptyBoard 4 (some TTT.Player.X) 0 =
      TTT.emptyBoard 0 :=
  ⟨(successful_move_frame.1 TTT.emptyBoard 4 TTT.Player.X
      (Function.update TTT.emptyBoard 4 (some TTT.Player.X)) rfl).1,
    (successful_move_frame.1 TTT.emptyBoard 4 TTT.Player.X
      (Function.update TTT.emptyBoard 4 (some TTT.Player.X)) rfl).2
      0 (by decide)⟩

namespace TTT

theorem occ9_le_nine (b : Board9) : occ9 b ≤ 9 := by
  have := Finset.card_filter_le (Finset.univ : Finset (Fin 9))
    (fun j => b j ≠ none)
  simpa [occ9] using this

theorem occ9_update (b : Board9) (i : Fin 9) (m : Player) (h : b i = none) :
    occ9 (Function.update b i (some m)) = occ9 b + 1 := by
  unfold occ9
  have hset : (Finset.univ.filter fun j => Function.update b i (some m) j ≠ none) =
      insert i (Finset.univ.filter fun j => b j ≠ none) := by
    ext j
    by_cases hj : j = i
    · subst hj
      simp [Function.update_same]
    · simp [Function.update_noteq hj, hj]
  rw [hset, Finset.card_insert_of_not_mem (by simp [h])]

theorem occ9_eq_nine_iff (b : Board9) : occ9 b = 9 ↔ boardFull b := by
  unfold occ9 boardFull
  constructor
  · intro h j
    have huniv : (Finset.univ.filter fun j => b j ≠ none) = Finset.univ := by
      apply Finset.eq_of_subset_of_card_le (Finset.filter_subset _ _)
      simp [h]
    have : j ∈ Finset.univ.filter fun j => b j ≠ none := by
      rw [huniv]; exact Finset.mem_univ j
    simpa using this
  · intro h
    rw [Finset.filter_true_of_mem (fun j _ => h j)]
    simp

theorem applyMove_ok (sq : Board9) (i : Fin 9) (m : Player) (b : Board9)
    (h : applyMove sq i m = .ok b) :
    sq i = none ∧ (calculateWinner sq).1 = none ∧
      b = Function.update sq i (some m) := by
  unfold applyMove at h
  by_cases h1 : sq i ≠ none
  · rw [if_pos h1] at h
    exact absurd h (by simp)
  · rw [if_neg h1] at h
    by_cases h2 : (calculateWinner sq).1 ≠ none
    · rw [if_pos h2] at h
      exact absurd h (by simp)
    · rw [if_neg h2] at h
      exact ⟨not_not.mp h1, not_not.mp h2, ((by simpa using h : _ = b)).symm⟩

/-- The reachability invariant of the tic-tac-toe engine: the entry at
index `k` holds a board with exactly `k` occupied cells, and the cursor is
in range. -/
def histInv (s : GameState) : Prop :=
  (∀ (k : Nat) (e : Entry), s.history[k]? = some e → occ9 e.squares = k) ∧
    s.currentMove < s.history.length

theorem currentSquares_eq (s : GameState) (e : Entry)
    (he : s.history[s.currentMove]? = some e) : currentSquares s = e.squares := by
  simp [currentSquares, he]

theorem reachable_histInv (s : GameState) (hs : Reachable s) : histInv s := by
  induction hs with
  | init =>
    refine ⟨fun k e he => ?_, by simp [initState]⟩
    match k with
    | 0 =>
      simp only [initState, List.getElem?_cons_zero, Option.some.injEq] at he
      rw [← he]
      simp [occ9, emptyBoard]
    | k + 1 => simp [initState] at he
  | jump s n _ hn ih =>
    exact ⟨fun k e he => ih.1 k e he, by simpa [jumpTo] using hn⟩
  | click s i _ ih =>
    obtain ⟨ihk, ihc⟩ := ih
    cases happ : applyMove (currentSquares s) i (if xIsNext s then .X else .O) with
    | error err =>
      simpa only [handleClick, happ] using ⟨ihk, ihc⟩
    | ok b =>
      obtain ⟨hnone, _, rfl⟩ := applyMove_ok _ _ _ _ happ
      obtain ⟨e0, he0⟩ : ∃ e0, s.history[s.currentMove]? = some e0 :=
        ⟨_, List.getElem?_eq_getElem ihc⟩
      have hcs : currentSquares s = e0.squares := currentSquares_eq s e0 he0
      have hocc0 : occ9 e0.squares = s.currentMove := ihk _ e0 he0
      have hlen : (s.history.take (s.currentMove + 1)).length = s.currentMove + 1 := by
        simp only [List.length_take]
        omega
      constructor
      · intro k e he
        simp only [handleClick, happ, handlePlay] at he
        rcases lt_trichotomy k (s.currentMove + 1) with hk | hk | hk
        · rw [List.getElem?_append_left (by omega),
            List.getElem?_take_of_lt (by omega)] at he
          exact ihk k e he
        · have hidx : k = (s.history.take (s.currentMove + 1)).length := by omega
          rw [hidx, List.getElem?_concat_length] at he
          have he' : e = ⟨Function.update (currentSquares s) i
              (some (if xIsNext s then Player.X else Player.O)),
              some (squareCoords i)⟩ := by
            simpa using he.symm
          rw [hcs] at hnone
          subst he'
          simp only [hk]
          show occ9 (Function.update (currentSquares s) i
            (some (if xIsNext s then Player.X else Player.O))) = s.currentMove + 1
          rw [hcs, occ9_update e0.squares i _ hnone, hocc0]
        · rw [List.getElem?_eq_none (by simp [hlen]; omega)] at he
          simp at he
      · simp only [handleClick, happ, handlePlay, List.length_append, hlen,
          List.length_cons, List.length_nil]
        omega

/-- C9: in every reachable history, the entry at index `k` holds a board
with exactly `k` occupied cells; hence the number of occupied cells of the
current board always equals the cursor value (the number of moves made). -/
theorem occupied_equals_move_count (s : GameState) (hs : Reachable s) :
    (∀ (k : Nat) (e : Entry), s.history[k]? = some e → occ9 e.squares = k) ∧
    occ9 (currentSquares s) = s.currentMove := by
  obtain ⟨hk, hc⟩ := reachable_histInv s hs
  refine ⟨hk, ?_⟩
  obtain ⟨e, he⟩ : ∃ e, s.history[s.currentMove]? = some e :=
    ⟨_, List.getElem?_eq_getElem hc⟩
  rw [currentSquares_eq s e he]
  exact hk _ e he

/-- Witness for C9: after one click on the initial state the current board
has exactly `cursor = 1` occupied cell. -/
theorem occupied_equals_move_count_witness :
    occ9 (currentSquares (handleClick initState 4)) =
      (handleClick initState 4).currentMove :=
  (occupied_equals_move_count (handleClick initState 4)
    (Reachable.click initState 4 Reachable.init)).2

/-- C4: over every reachable engine state, the draw status (the source's
"no winner and `currentMove === history.length - 1 && history.length ===
10`") holds if and only if the board at the cursor has no Empty cells and
`calculateWinner` reports no winner for it. -/
theorem isDraw_iff_board_full_no_winner (s : GameState) (hs : Reachable s)
    (e : Entry) (he : s.history[s.currentMove]? = some e) :
    isDraw s ↔ boardFull e.squares ∧ (calculateWinner e.squares).1 = none := by
  obtain ⟨hk, hc⟩ := reachable_histInv s hs
  have hcs : currentSquares s = e.squares := currentSquares_eq s e he
  have hocc : occ9 e.squares = s.currentMove := hk _ e he
  have hlen10 : s.history.length ≤ 10 := by
    obtain ⟨e', he'⟩ : ∃ e', s.history[s.history.length - 1]? = some e' :=
      ⟨_, List.getElem?_eq_getElem (by omega)⟩
    have h1 := hk _ e' he'
    have h2 : occ9 e'.squares ≤ 9 := occ9_le_nine _
    omega
  have hocc9 : occ9 e.squares ≤ 9 := occ9_le_nine _
  constructor
  · rintro ⟨hnw, hcm, hten⟩
    have h9 : occ9 e.squares = 9 := by omega
    exact ⟨(occ9_eq_nine_iff _).mp h9, by rwa [hcs] at hnw⟩
  · rintro ⟨hfull, hnw⟩
    have h9 : occ9 e.squares = 9 := (occ9_eq_nine_iff _).mpr hfull
    exact ⟨by rwa [hcs], by omega, by omega⟩

/-- Witness for C4: at the initial state (board empty, one entry) both
sides of the equivalence are false. -/
theorem isDraw_iff_board_full_no_winner_witness :
    isDraw initState ↔
      boardFull emptyBoard ∧ (calculateWinner emptyBoard).1 = none :=
  isDraw_iff_board_full_no_winner initState Reachable.init ⟨emptyBoard, none⟩ rfl

end TTT

namespace C4

theorem dropPiece_won (s : C4State) (col : Int) (hw : s.winner ≠ none) :
    dropPiece col s = s := by
  simp [dropPiece, hw]

theorem dropPiece_full (s : C4State) (col : Int)
    (hr : findRow s.board col = none) : dropPiece col s = s := by
  by_cases hw : s.winner = none
  · simp [dropPiece, hw, hr]
  · simp [dropPiece, hw]

theorem goFR_some (b : Board4) (col : Int) :
    ∀ (n : Nat) (r : Int), goFR b col n = some r →
      0 ≤ r ∧ r < (n : Int) ∧ b r col = none ∧
        ∀ r' : Int, r < r' → r' < (n : Int) → b r' col ≠ none := by
  intro n
  induction n with
  | zero => intro r h; simp [goFR] at h
  | succ n ih =>
    intro r h
    unfold goFR at h
    by_cases hc : b (n : Int) col = none
    · rw [if_pos hc] at h
      obtain rfl : (n : Int) = r := by simpa using h
      refine ⟨by omega, by push_cast; omega, hc, ?_⟩
      intro r' h1 h2
      omega
    · rw [if_neg hc] at h
      obtain ⟨h0, h1, h2, h3⟩ := ih r h
      refine ⟨h0, by push_cast; omega, h2, ?_⟩
      intro r' hr1 hr2
      by_cases hr' : r' < (n : Int)
      · exact h3 r' hr1 hr'
      · have heq : r' = (n : Int) := by push_cast at hr2; omega
        rw [heq]
        exact hc

theorem goFR_none (b : Board4) (col : Int) :
    ∀ n : Nat, goFR b col n = none ↔
      ∀ r : Int, 0 ≤ r → r < (n : Int) → b r col ≠ none := by
  intro n
  induction n with
  | zero =>
    constructor
    · intro _ r h1 h2
      omega
    · intro _; rfl
  | succ n ih =>
    unfold goFR
    by_cases hc : b (n : Int) col = none
    · rw [if_pos hc]
      constructor
      · intro h; simp at h
      · intro h
        exact absurd hc (h (n : Int) (by omega) (by push_cast; omega))
    · rw [if_neg hc, ih]
      constructor
      · intro h r h1 h2
        by_cases hr : r < (n : Int)
        · exact h r h1 hr
        · have heq : r = (n : Int) := by omega
          rw [heq]
          exact hc
      · intro h r h1 h2
        exact h r h1 (by push_cast at h2 ⊢; omega)

theorem findRow_some (b : Board4) (col r : Int) (h : findRow b col = some r) :
    0 ≤ r ∧ r < 6 ∧ b r col = none ∧
      ∀ r' : Int, r < r' → r' < 6 → b r' col ≠ none := by
  obtain ⟨h1, h2, h3, h4⟩ := goFR_some b col 6 r h
  exact ⟨h1, by omega, h3, fun r' ha hb => h4 r' ha (by omega)⟩

theorem findRow_none_iff (b : Board4) (col : Int) :
    findRow b col = none ↔ ∀ r : Int, 0 ≤ r → r < 6 → b r col ≠ none := by
  rw [findRow, goFR_none b col 6]
  constructor
  · intro h r h1 h2
    exact h r h1 (by omega)
  · intro h r h1 h2
    exact h r h1 (by omega)

/-- C5: the gravity resolution of `dropPiece` scans rows from the bottom
(highest index) upward and settles the piece at the first row whose cell
in the chosen column is Empty (all rows below it are occupied); when the
column has no Empty cell the resolution fails (`findRow` returns `none`,
the model of `ColumnFullError`) and no piece is placed. -/
theorem findRow_first_empty_from_bottom (b : Board4) (col : Int) :
    (∀ r : Int, findRow b col = some r →
        0 ≤ r ∧ r < 6 ∧ b r col = none ∧
          ∀ r' : Int, r < r' → r' < 6 → b r' col ≠ none) ∧
    (findRow b col = none ↔ ∀ r : Int, 0 ≤ r → r < 6 → b r col ≠ none) ∧
    (∀ (s : C4State) (r : Int), s.board = b → s.winner = none →
        findRow b col = some r →
        (dropPiece col s).board r col = some s.currentPlayer) := by
  refine ⟨fun r h => findRow_some b col r h, findRow_none_iff b col, ?_⟩
  rintro s r rfl hw hr
  rw [(dropPiece_success s col r hw hr).1]
  simp [update2]

/-- Witness for C5: on a board whose column 0 has rows 5 and 4 occupied,
the drop resolves to row 3, whose cell is Empty. -/
theorem findRow_first_empty_from_bottom_witness :
    (0 : Int) ≤ 3 ∧ (3 : Int) < 6 ∧ demoTwoStack 3 0 = none :=
  ⟨((findRow_first_empty_from_bottom demoTwoStack 0).1 3 (by decide)).1,
   ((findRow_first_empty_from_bottom demoTwoStack 0).1 3 (by decide)).2.1,
   ((findRow_first_empty_from_bottom demoTwoStack 0).1 3 (by decide)).2.2.1⟩

end C4

namespace C4

theorem occ4_update (b : Board4) (r c : Int) (p : RY)
    (hr0 : 0 ≤ r) (hr6 : r < 6) (hc0 : 0 ≤ c) (hc7 : c < 7)
    (h : b r c = none) :
    occ4 (update2 b r c (some p)) = occ4 b + 1 := by
  unfold occ4
  have hset :
      ((Finset.range 6 ×ˢ Finset.range 7).filter
        fun rc : Nat × Nat =>
          update2 b r c (some p) (rc.1 : Int) (rc.2 : Int) ≠ none) =
      insert (r.toNat, c.toNat)
        ((Finset.range 6 ×ˢ Finset.range 7).filter
          fun rc : Nat × Nat => b (rc.1 : Int) (rc.2 : Int) ≠ none) := by
    ext ⟨a, d⟩
    simp only [Finset.mem_filter, Finset.mem_insert, Finset.mem_product,
      Finset.mem_range, Prod.mk.injEq]
    by_cases had : (a : Int) = r ∧ (d : Int) = c
    · obtain ⟨ha, hd⟩ := had
      have hup : update2 b r c (some p) (a : Int) (d : Int) = some p := by
        simp [update2, ha, hd]
      rw [hup]
      constructor
      · intro _
        exact Or.inl ⟨by omega, by omega⟩
      · intro _
        exact ⟨⟨by omega, by omega⟩, by simp⟩
    · have hup : update2 b r c (some p) (a : Int) (d : Int) =
          b (a : Int) (d : Int) := by
        simp only [update2]
        rw [if_neg had]
      rw [hup]
      constructor
      · rintro ⟨hb, hv⟩
        exact Or.inr ⟨hb, hv⟩
      · rintro (⟨h1, h2⟩ | hold)
        · exact absurd ⟨by omega, by omega⟩ had
        · exact hold
  rw [hset, Finset.card_insert_of_not_mem]
  simp only [Finset.mem_filter, not_and]
  intro _
  simp [Int.toNat_of_nonneg hr0, Int.toNat_of_nonneg hc0, h]

/-- C10: every successful piece drop toggles `currentPlayer` — including
the drop that wins the game — so the invariant "currentPlayer is red iff
the number of occupied cells is even" holds in every reachable Connect
Four state: initially, after every drop, after a win (until restart), and
after Restart resets the game. -/
theorem player_parity_invariant :
    (∀ (s : C4State) (col r : Int), s.winner = none →
        findRow s.board col = some r →
        (dropPiece col s).currentPlayer = toggle s.currentPlayer) ∧
    ∀ s : C4State, ReachableC4 s →
      (s.currentPlayer = RY.red ↔ occ4 s.board % 2 = 0) := by
  refine ⟨fun s col r hw hr => (dropPiece_success s col r hw hr).2, ?_⟩
  intro s hs
  induction hs with
  | init => decide
  | drop s col hR h0 h7 ih =>
    by_cases hw : s.winner = none
    · cases hr : findRow s.board col with
      | none =>
        rw [dropPiece_full s col hr]
        exact ih
      | some r =>
        obtain ⟨h0r, h6r, hnone, -⟩ := findRow_some s.board col r hr
        obtain ⟨hb, hp⟩ := dropPiece_success s col r hw hr
        rw [hp, hb, occ4_update s.board r col s.currentPlayer h0r h6r h0 h7 hnone]
        cases hcp : s.currentPlayer with
        | red =>
          rw [hcp] at ih
          have heven := ih.mp rfl
          have hodd : ¬ ((occ4 s.board + 1) % 2 = 0) := by omega
          simp [toggle, hodd]
        | yellow =>
          rw [hcp] at ih
          have hodd : occ4 s.board % 2 ≠ 0 := by
            intro hmod
            exact absurd (ih.mpr hmod) (by simp)
          have heven : (occ4 s.board + 1) % 2 = 0 := by omega
          simp [toggle, heven]
    · rw [dropPiece_won s col hw]
      exact ih
  | restart s hR ih => decide

/-- Witness for C10: the very first drop (column 0 from the initial state)
toggles red to yellow, and the initial state satisfies the parity
invariant. -/
theorem player_parity_invariant_witness :
    (dropPiece 0 init4).currentPlayer = toggle init4.currentPlayer ∧
    (init4.currentPlayer = RY.red ↔ occ4 init4.board % 2 = 0) :=
  ⟨player_parity_invariant.1 init4 0 5 rfl (by decide),
   player_parity_invariant.2 init4 ReachableC4.init⟩

end C4

namespace C4

theorem goodAt_iff (b : Board4) (p : RY) (r c : Int) :
    goodAt b p r c = true ↔ inB r c ∧ b r c = some p := by
  simp [goodAt]

theorem ray_length_le (b : Board4) (p : RY) (dr dc : Int) :
    ∀ (n : Nat) (r c : Int), (ray b p dr dc n r c).length ≤ n := by
  intro n
  induction n with
  | zero => intro r c; simp [ray]
  | succ n ih =>
    intro r c
    unfold ray
    by_cases hg : goodAt b p r c
    · rw [if_pos hg]
      simpa using ih (r + dr) (c + dc)
    · rw [if_neg hg]
      simp

theorem ray_good (b : Board4) (p : RY) (dr dc : Int) :
    ∀ (n : Nat) (r c : Int) (j : Nat),
      j < (ray b p dr dc n r c).length →
      goodAt b p (r + (j : Int) * dr) (c + (j : Int) * dc) = true := by
  intro n
  induction n with
  | zero => intro r c j h; simp [ray] at h
  | succ n ih =>
    intro r c j h
    unfold ray at h
    by_cases hg : goodAt b p r c
    · rw [if_pos hg] at h
      simp only [List.length_cons] at h
      match j with
      | 0 => simpa using hg
      | j + 1 =>
        have hj : j < (ray b p dr dc n (r + dr) (c + dc)).length := by omega
        have hrec := ih (r + dr) (c + dc) j hj
        have harg1 : r + ((j + 1 : Nat) : Int) * dr = r + dr + (j : Int) * dr := by
          push_cast
          ring
        have harg2 : c + ((j + 1 : Nat) : Int) * dc = c + dc + (j : Int) * dc := by
          push_cast
          ring
        rw [harg1, harg2]
        exact hrec
    · rw [if_neg hg] at h
      simp at h

theorem ray_stop (b : Board4) (p : RY) (dr dc : Int) :
    ∀ (n : Nat) (r c : Int), (ray b p dr dc n r c).length < n →
      goodAt b p (r + ((ray b p dr dc n r c).length : Int) * dr)
        (c + ((ray b p dr dc n r c).length : Int) * dc) = false := by
  intro n
  induction n with
  | zero => intro r c h; simp at h
  | succ n ih =>
    intro r c h
    by_cases hg : goodAt b p r c
    · have hray : ray b p dr dc (n + 1) r c =
          (r, c) :: ray b p dr dc n (r + dr) (c + dc) := by
        simp only [ray]
        rw [if_pos hg]
      rw [hray] at h ⊢
      simp only [List.length_cons] at h ⊢
      have hlt : (ray b p dr dc n (r + dr) (c + dc)).length < n := by omega
      have hrec := ih (r + dr) (c + dc) hlt
      have harg1 : r + (((ray b p dr dc n (r + dr) (c + dc)).length + 1 : Nat) : Int) * dr =
          r + dr + ((ray b p dr dc n (r + dr) (c + dc)).length : Int) * dr := by
        push_cast
        ring
      have harg2 : c + (((ray b p dr dc n (r + dr) (c + dc)).length + 1 : Nat) : Int) * dc =
          c + dc + ((ray b p dr dc n (r + dr) (c + dc)).length : Int) * dc := by
        push_cast
        ring
      rw [harg1, harg2]
      exact hrec
    · have hray : ray b p dr dc (n + 1) r c = [] := by
        unfold ray
        rw [if_neg hg]
      rw [hray]
      simp only [List.length_nil, Nat.cast_zero, zero_mul, add_zero]
      simp only [Bool.not_eq_true] at hg
      exact hg

theorem ray_ge (b : Board4) (p : RY) (dr dc : Int) :
    ∀ (n : Nat) (r c : Int) (m : Nat), m ≤ n →
      (∀ j : Nat, j < m →
        goodAt b p (r + (j : Int) * dr) (c + (j : Int) * dc) = true) →
      m ≤ (ray b p dr dc n r c).length := by
  intro n
  induction n with
  | zero => intro r c m hm _; omega
  | succ n ih =>
    intro r c m hm hall
    match m with
    | 0 => exact Nat.zero_le _
    | m + 1 =>
      have hg : goodAt b p r c = true := by simpa using hall 0 (by omega)
      have hray : ray b p dr dc (n + 1) r c =
          (r, c) :: ray b p dr dc n (r + dr) (c + dc) := by
        simp only [ray]
        rw [if_pos hg]
      rw [hray]
      simp only [List.length_cons]
      have htail : m ≤ (ray b p dr dc n (r + dr) (c + dc)).length := by
        apply ih (r + dr) (c + dc) m (by omega)
        intro j hj
        have hstep := hall (j + 1) (by omega)
        have harg1 : r + ((j + 1 : Nat) : Int) * dr = r + dr + (j : Int) * dr := by
          push_cast
          ring
        have harg2 : c + ((j + 1 : Nat) : Int) * dc = c + dc + (j : Int) * dc := by
          push_cast
          ring
        rw [harg1, harg2] at hstep
        exact hstep
      omega

theorem ray_mem (b : Board4) (p : RY) (dr dc : Int) :
    ∀ (n : Nat) (r c : Int) (q : Int × Int),
      q ∈ ray b p dr dc n r c ↔
        ∃ j : Nat, j < (ray b p dr dc n r c).length ∧
          q = (r + (j : Int) * dr, c + (j : Int) * dc) := by
  intro n
  induction n with
  | zero => intro r c q; simp [ray]
  | succ n ih =>
    intro r c q
    by_cases hg : goodAt b p r c
    · have hray : ray b p dr dc (n + 1) r c =
          (r, c) :: ray b p dr dc n (r + dr) (c + dc) := by
        simp only [ray]
        rw [if_pos hg]
      rw [hray]
      simp only [List.mem_cons, List.length_cons]
      constructor
      · rintro (rfl | hq)
        · exact ⟨0, by omega, by simp⟩
        · obtain ⟨j, hj, rfl⟩ := (ih (r + dr) (c + dc) q).mp hq
          refine ⟨j + 1, by omega, ?_⟩
          simp only [Prod.mk.injEq]
          constructor <;> (push_cast; ring)
      · rintro ⟨j, hj, rfl⟩
        match j with
        | 0 =>
          left
          simp
        | j + 1 =>
          right
          apply (ih (r + dr) (c + dc) _).mpr
          refine ⟨j, by omega, ?_⟩
          simp only [Prod.mk.injEq]
          constructor <;> (push_cast; ring)
    · have hray : ray b p dr dc (n + 1) r c = [] := by
        unfold ray
        rw [if_neg hg]
      rw [hray]
      simp

theorem ray_length_lt_8 (b : Board4) (p : RY) (dr dc : Int)
    (hd : isUnitDir dr dc) (r c : Int) :
    (ray b p dr dc 8 r c).length < 8 := by
  by_contra hcon
  have hlen : (ray b p dr dc 8 r c).length = 8 :=
    le_antisymm (ray_length_le b p dr dc 8 r c) (by omega)
  have h0 := ray_good b p dr dc 8 r c 0 (by omega)
  have h7 := ray_good b p dr dc 8 r c 7 (by omega)
  simp only [goodAt, Bool.and_eq_true, decide_eq_true_eq] at h0 h7
  obtain ⟨hin0, -⟩ := h0
  obtain ⟨hin7, -⟩ := h7
  unfold inB at hin0 hin7
  push_cast at hin0 hin7
  unfold isUnitDir at hd
  rcases hd with (rfl | rfl) | ⟨rfl, (rfl | rfl)⟩ <;> omega

end C4

namespace C4

theorem isUnitDir_neg (dr dc : Int) (hd : isUnitDir dr dc) :
    isUnitDir (-dr) (-dc) := by
  unfold isUnitDir at *
  rcases hd with (rfl | rfl) | ⟨rfl, (rfl | rfl)⟩ <;> norm_num

theorem good_offset (b : Board4) (p : RY) (row col dr dc : Int)
    (hg : goodAt b p row col = true) :
    ∀ t : Int, 0 ≤ t →
      t ≤ ((ray b p dr dc 8 (row + dr) (col + dc)).length : Int) →
      goodAt b p (row + t * dr) (col + t * dc) = true := by
  intro t ht0 htL
  rcases ht0.eq_or_lt with heq | hpos
  · rw [← heq]
    simpa using hg
  · have hj : ((t - 1).toNat : Int) = t - 1 := Int.toNat_of_nonneg (by omega)
    have hjlt : (t - 1).toNat < (ray b p dr dc 8 (row + dr) (col + dc)).length := by
      omega
    have hrec := ray_good b p dr dc 8 (row + dr) (col + dc) (t - 1).toNat hjlt
    have harg1 : row + dr + ((t - 1).toNat : Int) * dr = row + t * dr := by
      rw [hj]; ring
    have harg2 : col + dc + ((t - 1).toNat : Int) * dc = col + t * dc := by
      rw [hj]; ring
    rw [harg1, harg2] at hrec
    exact hrec

theorem le_ray_length (b : Board4) (p : RY) (row col dr dc : Int)
    (hd : isUnitDir dr dc) (hg : goodAt b p row col = true) :
    ∀ t : Int, 0 ≤ t →
      (∀ i : Int, 0 < i → i ≤ t →
        goodAt b p (row + i * dr) (col + i * dc) = true) →
      t ≤ ((ray b p dr dc 8 (row + dr) (col + dc)).length : Int) := by
  intro t ht0 hall
  have ht7 : t ≤ 7 := by
    by_contra hcon
    push_neg at hcon
    obtain ⟨hin0, -⟩ := (goodAt_iff b p row col).mp hg
    obtain ⟨hin8, -⟩ := (goodAt_iff b p _ _).mp (hall 8 (by omega) (by omega))
    unfold inB at hin0 hin8
    unfold isUnitDir at hd
    rcases hd with (rfl | rfl) | ⟨rfl, (rfl | rfl)⟩ <;> omega
  have hjs : ∀ j : Nat, j < t.toNat →
      goodAt b p (row + dr + (j : Int) * dr) (col + dc + (j : Int) * dc) = true := by
    intro j hj
    have hstep := hall ((j : Int) + 1) (by omega) (by omega)
    have harg1 : row + dr + (j : Int) * dr = row + ((j : Int) + 1) * dr := by ring
    have harg2 : col + dc + (j : Int) * dc = col + ((j : Int) + 1) * dc := by ring
    rw [harg1, harg2]
    exact hstep
  have hge := ray_ge b p dr dc 8 (row + dr) (col + dc) t.toNat (by omega) hjs
  omega

theorem axis_count_iff (b : Board4) (p : RY) (row col dr dc dr2 dc2 : Int)
    (hd : isUnitDir dr dc) (h2r : dr2 = -dr) (h2c : dc2 = -dc)
    (hg : goodAt b p row col = true) :
    4 ≤ (axisCells b p row col (dr, dc) (dr2, dc2)).length ↔
      hasRun b p row col dr dc := by
  subst h2r h2c
  have hlen : (axisCells b p row col (dr, dc) (-dr, -dc)).length =
      1 + (ray b p dr dc 8 (row + dr) (col + dc)).length +
        (ray b p (-dr) (-dc) 8 (row + -dr) (col + -dc)).length := by
    simp only [axisCells, List.length_cons, List.length_append]
    omega
  constructor
  · intro hcount
    rw [hlen] at hcount
    refine ⟨-(min ((ray b p (-dr) (-dc) 8 (row + -dr) (col + -dc)).length : Int) 3),
      by omega, by omega, ?_⟩
    intro j hj0 hj3
    have hcase :
        (0 ≤ -(min ((ray b p (-dr) (-dc) 8 (row + -dr) (col + -dc)).length : Int) 3) + j ∧
          -(min ((ray b p (-dr) (-dc) 8 (row + -dr) (col + -dc)).length : Int) 3) + j ≤
            ((ray b p dr dc 8 (row + dr) (col + dc)).length : Int)) ∨
        (-(min ((ray b p (-dr) (-dc) 8 (row + -dr) (col + -dc)).length : Int) 3) + j < 0 ∧
          -(-(min ((ray b p (-dr) (-dc) 8 (row + -dr) (col + -dc)).length : Int) 3) + j) ≤
            ((ray b p (-dr) (-dc) 8 (row + -dr) (col + -dc)).length : Int)) := by
      omega
    rcases hcase with ⟨ht0, htL⟩ | ⟨ht0, htL⟩
    · have hgood := good_offset b p row col dr dc hg _ ht0 htL
      rw [goodAt_iff] at hgood
      exact hgood
    · have hgood := good_offset b p row col (-dr) (-dc) hg _ (by omega) htL
      rw [goodAt_iff] at hgood
      have harg1 : row +
          -(-(min ((ray b p (-dr) (-dc) 8 (row + -dr) (col + -dc)).length : Int) 3) + j) * -dr =
          row + (-(min ((ray b p (-dr) (-dc) 8 (row + -dr) (col + -dc)).length : Int) 3) + j) * dr := by
        ring
      have harg2 : col +
          -(-(min ((ray b p (-dr) (-dc) 8 (row + -dr) (col + -dc)).length : Int) 3) + j) * -dc =
          col + (-(min ((ray b p (-dr) (-dc) 8 (row + -dr) (col + -dc)).length : Int) 3) + j) * dc := by
        ring
      rw [harg1, harg2] at hgood
      exact hgood
  · rintro ⟨k, hk3, hk0, hwin⟩
    have hwing : ∀ t : Int, k ≤ t → t ≤ k + 3 →
        goodAt b p (row + t * dr) (col + t * dc) = true := by
      intro t h1 h2
      have hstep := hwin (t - k) (by omega) (by omega)
      rw [goodAt_iff]
      have harg : k + (t - k) = t := by ring
      rw [harg] at hstep
      exact hstep
    have hL1ge : k + 3 ≤ ((ray b p dr dc 8 (row + dr) (col + dc)).length : Int) := by
      apply le_ray_length b p row col dr dc hd hg (k + 3) (by omega)
      intro i h1 h2
      exact hwing i (by omega) (by omega)
    have hL2ge : -k ≤ ((ray b p (-dr) (-dc) 8 (row + -dr) (col + -dc)).length : Int) := by
      apply le_ray_length b p row col (-dr) (-dc) (isUnitDir_neg dr dc hd) hg (-k)
        (by omega)
      intro i h1 h2
      have hstep := hwing (-i) (by omega) (by omega)
      have harg1 : row + i * -dr = row + -i * dr := by ring
      have harg2 : col + i * -dc = col + -i * dc := by ring
      rw [harg1, harg2]
      exact hstep
    rw [hlen]
    omega

end C4

namespace C4

theorem axis_mem_iff (b : Board4) (p : RY) (row col dr dc dr2 dc2 : Int)
    (hd : isUnitDir dr dc) (h2r : dr2 = -dr) (h2c : dc2 = -dc)
    (hg : goodAt b p row col = true) (q : Int × Int) :
    q ∈ axisCells b p row col (dr, dc) (dr2, dc2) ↔
      connRun b p row col dr dc q := by
  subst h2r h2c
  constructor
  · intro hq
    simp only [axisCells, List.mem_cons, List.mem_append] at hq
    rcases hq with rfl | hq | hq
    · refine ⟨0, by simp, ?_⟩
      intro i h1 h2
      have hi : i = 0 := by omega
      subst hi
      have hgi := (goodAt_iff b p row col).mp hg
      simpa using hgi
    · obtain ⟨j, hj, rfl⟩ := (ray_mem b p dr dc 8 (row + dr) (col + dc) q).mp hq
      refine ⟨(j : Int) + 1, by simp only [Prod.mk.injEq]; constructor <;> ring, ?_⟩
      intro i h1 h2
      have hgi := good_offset b p row col dr dc hg i (by omega) (by omega)
      rw [goodAt_iff] at hgi
      exact hgi
    · obtain ⟨j, hj, rfl⟩ :=
        (ray_mem b p (-dr) (-dc) 8 (row + -dr) (col + -dc) q).mp hq
      refine ⟨-((j : Int) + 1), by simp only [Prod.mk.injEq]; constructor <;> ring, ?_⟩
      intro i h1 h2
      have hgi := good_offset b p row col (-dr) (-dc) hg (-i) (by omega) (by omega)
      rw [goodAt_iff] at hgi
      have harg1 : row + -i * -dr = row + i * dr := by ring
      have harg2 : col + -i * -dc = col + i * dc := by ring
      rw [harg1, harg2] at hgi
      exact hgi
  · rintro ⟨t, rfl, hbet⟩
    simp only [axisCells, List.mem_cons, List.mem_append]
    rcases lt_trichotomy t 0 with ht | rfl | ht
    · right; right
      apply (ray_mem b p (-dr) (-dc) 8 (row + -dr) (col + -dc) _).mpr
      have hL2 : -t ≤ ((ray b p (-dr) (-dc) 8 (row + -dr) (col + -dc)).length : Int) := by
        apply le_ray_length b p row col (-dr) (-dc) (isUnitDir_neg dr dc hd) hg (-t)
          (by omega)
        intro i h1 h2
        have hstep := hbet (-i) (by omega) (by omega)
        rw [goodAt_iff]
        have harg1 : row + i * -dr = row + -i * dr := by ring
        have harg2 : col + i * -dc = col + -i * dc := by ring
        rw [harg1, harg2]
        exact hstep
      refine ⟨(-t - 1).toNat, by omega, ?_⟩
      have htn : ((-t - 1).toNat : Int) = -t - 1 := Int.toNat_of_nonneg (by omega)
      simp only [Prod.mk.injEq]
      constructor <;> (rw [htn]; ring)
    · left
      simp
    · right; left
      apply (ray_mem b p dr dc 8 (row + dr) (col + dc) _).mpr
      have hL1 : t ≤ ((ray b p dr dc 8 (row + dr) (col + dc)).length : Int) := by
        apply le_ray_length b p row col dr dc hd hg t (by omega)
        intro i h1 h2
        have hstep := hbet i (by omega) (by omega)
        rw [goodAt_iff]
        exact hstep
      refine ⟨(t - 1).toNat, by omega, ?_⟩
      have htn : ((t - 1).toNat : Int) = t - 1 := Int.toNat_of_nonneg (by omega)
      simp only [Prod.mk.injEq]
      constructor <;> (rw [htn]; ring)

theorem goAxes_spec (b : Board4) (p : RY) (row col : Int)
    (hg : goodAt b p row col = true) :
    ∀ L : List ((Int × Int) × (Int × Int)), (∀ d ∈ L, axOK d) →
      (goAxes b p row col L = none ↔
        ∀ d ∈ L, ¬ hasRun b p row col d.1.1 d.1.2) ∧
      (∀ cells, goAxes b p row col L = some cells →
        ∃ d ∈ L, hasRun b p row col d.1.1 d.1.2 ∧
          ∀ q, q ∈ cells ↔ connRun b p row col d.1.1 d.1.2 q) := by
  intro L
  induction L with
  | nil =>
    intro _
    constructor
    · simp [goAxes]
    · intro cells h
      simp [goAxes] at h
  | cons d rest ih =>
    intro hok
    obtain ⟨⟨dr, dc⟩, ⟨dr2, dc2⟩⟩ := d
    obtain ⟨hdu, h2r, h2c⟩ := hok _ (List.mem_cons_self _ _)
    have hrest := ih fun d' hd' => hok d' (List.mem_cons_of_mem _ hd')
    have hcountiff := axis_count_iff b p row col dr dc dr2 dc2 hdu h2r h2c hg
    by_cases hc : 4 ≤ (axisCells b p row col (dr, dc) (dr2, dc2)).length
    · have hgo : goAxes b p row col (((dr, dc), (dr2, dc2)) :: rest) =
          some (axisCells b p row col (dr, dc) (dr2, dc2)) := by
        simp only [goAxes]
        rw [if_pos hc]
      constructor
      · rw [hgo]
        constructor
        · intro h
          simp at h
        · intro h
          exact absurd (hcountiff.mp hc) (h _ (List.mem_cons_self _ _))
      · intro cells hcells
        rw [hgo, Option.some.injEq] at hcells
        subst hcells
        refine ⟨((dr, dc), (dr2, dc2)), List.mem_cons_self _ _, hcountiff.mp hc, ?_⟩
        intro q
        exact axis_mem_iff b p row col dr dc dr2 dc2 hdu h2r h2c hg q
    · have hgo : goAxes b p row col (((dr, dc), (dr2, dc2)) :: rest) =
          goAxes b p row col rest := by
        simp only [goAxes]
        rw [if_neg hc]
      rw [hgo]
      constructor
      · rw [hrest.1]
        constructor
        · intro h d' hd'
          rcases List.mem_cons.mp hd' with rfl | hd'
          · exact fun hrun => hc (hcountiff.mpr hrun)
          · exact h d' hd'
        · intro h d' hd'
          exact h d' (List.mem_cons_of_mem _ hd')
      · intro cells hcells
        obtain ⟨d', hd', hrun, hmem⟩ := hrest.2 cells hcells
        exact ⟨d', List.mem_cons_of_mem _ hd', hrun, hmem⟩

/-- C2: for every 6x7 board and just-placed in-bounds cell `(row, col)`
holding `player`, `checkWinner` reports a win if and only if some axis of
the `directions` table contains a run of 4 or more consecutive cells of
that player passing through `(row, col)`; on a win the returned
`winningCells` are exactly the full connected run of that player's aligned
cells through `(row, col)` along the reported winning axis. -/
theorem checkWinner_directional (b : Board4) (row col : Int) (p : RY)
    (hin : inB row col) (hcell : b row col = some p) :
    ((checkWinner b row col p).isSome ↔
      ∃ d ∈ axesList, hasRun b p row col d.1.1 d.1.2) ∧
    (∀ cells, checkWinner b row col p = some cells →
      ∃ d ∈ axesList, hasRun b p row col d.1.1 d.1.2 ∧
        ∀ q, q ∈ cells ↔ connRun b p row col d.1.1 d.1.2 q) := by
  have hg : goodAt b p row col = true := (goodAt_iff b p row col).mpr ⟨hin, hcell⟩
  have hok : ∀ d ∈ axesList, axOK d := by decide
  obtain ⟨hnone, hsome⟩ := goAxes_spec b p row col hg axesList hok
  constructor
  · constructor
    · intro hs
      obtain ⟨cells, hc⟩ := Option.isSome_iff_exists.mp hs
      obtain ⟨d, hd, hrun, -⟩ := hsome cells hc
      exact ⟨d, hd, hrun⟩
    · rintro ⟨d, hd, hrun⟩
      cases hcw : checkWinner b row col p with
      | some cells => simp
      | none => exact absurd hrun (hnone.mp hcw d hd)
  · exact hsome

/-- Witness for C2: on the demo board with four red pieces at row 5,
columns 0-3, placing the last red piece at `(5, 3)` is reported as a win
exactly because a 4-run through `(5, 3)` exists. -/
theorem checkWinner_directional_witness :
    (checkWinner demoRowBoard 5 3 RY.red).isSome ↔
      ∃ d ∈ axesList, hasRun demoRowBoard RY.red 5 3 d.1.1 d.1.2 :=
  (checkWinner_directional demoRowBoard 5 3 RY.red (by decide) rfl).1

end C4
